import Mathlib

/-!
Shallow embedding of the Shift Builder program (`shift_builder.py`).

Python objects are modelled as immutable Lean structures with explicit state
passing.  Python `set`s that are only ever queried with `in` (never iterated)
are modelled as `List`s used up to membership; Python `dict`s are modelled as
association lists (`List.lookup`) or, for the workload counters, as a total
function defaulting to `0` (the program initialises every key it ever reads
to `0`, for every registered worker and every day `0`-`6`).
-/

structure Employee where
  name : String
  employee_id : String
  departments : List String
  availability : List (Nat × List String)
deriving DecidableEq, Repr

/-- `Employee.is_available`: `day in self.availability and time_slot in self.availability[day]`. -/
def Employee.is_available (e : Employee) (day : Nat) (time_slot : String) : Bool :=
  match e.availability.lookup day with
  | some slots => slots.contains time_slot
  | none => false

/-- `Employee.can_work_in_department`: `department in self.departments`. -/
def Employee.can_work_in_department (e : Employee) (department : String) : Bool :=
  e.departments.contains department

structure Shift where
  day : Nat
  time_slot : String
  department : String
  employee : Option Employee
deriving DecidableEq, Repr

/-- The eligibility condition, written identically at lines 61-62
(`Shift.assign_employee`) and 127-128 (the eligibility loop of
`assign_shifts`) of the source. -/
def eligCheck (e : Employee) (s : Shift) : Bool :=
  e.is_available s.day s.time_slot && e.can_work_in_department s.department

/-- `Shift.assign_employee`: sets the employee and returns `true` when the
employee is available and can work the department, otherwise leaves the shift
unchanged and returns `false`. -/
def Shift.assign_employee (s : Shift) (e : Employee) : Shift × Bool :=
  if eligCheck e s then ({ s with employee := some e }, true)
  else (s, false)

/-- `Shift.is_assigned`: `self.employee is not None`. -/
def Shift.is_assigned (s : Shift) : Bool :=
  s.employee.isSome

structure ShiftBuilder where
  employees : List Employee
  shifts : List Shift
  departments : List String
  time_slots : List String
deriving Repr

/-- `ShiftBuilder.add_employee`: appends the employee and unions its
departments into the builder's department set (queried only by membership). -/
def ShiftBuilder.add_employee (b : ShiftBuilder) (e : Employee) : ShiftBuilder :=
  { b with employees := b.employees ++ [e], departments := b.departments ++ e.departments }

/-- `ShiftBuilder.set_time_slots`. -/
def ShiftBuilder.set_time_slots (b : ShiftBuilder) (time_slots : List String) : ShiftBuilder :=
  { b with time_slots := time_slots }

/-- `ShiftBuilder.generate_shifts`: cross product `days × time_slots ×
departments`, replacing any previous shift list; `days = none` models the
Python default `days=None`, which expands to `range(7)`. -/
def ShiftBuilder.generate_shifts (b : ShiftBuilder) (departments : List String)
    (days : Option (List Nat)) : ShiftBuilder :=
  let days := days.getD (List.range 7)
  { b with
    departments := b.departments ++ departments,
    shifts := days.flatMap fun day =>
      b.time_slots.flatMap fun time_slot =>
        departments.map fun department => ⟨day, time_slot, department, none⟩ }

/-- The eligibility filter of `assign_shifts` (lines 124-130): the employees,
in registration order, that are available and can work the department. -/
def eligibleFor (employees : List Employee) (s : Shift) : List Employee :=
  employees.filter fun emp => eligCheck emp s

/-- The workload tracker `employee_shifts_per_day`, as a total function
(every key the program reads is initialised to `0`). -/
def Tracker : Type :=
  String → Nat → Nat

/-- The tracker initialisation: `0` for every worker and day. -/
def initTracker : Tracker :=
  fun _ _ => 0

/-- `employee_shifts_per_day[id][day] += 1`. -/
def Tracker.incr (tr : Tracker) (id : String) (day : Nat) : Tracker :=
  fun i d => if i = id ∧ d = day then tr i d + 1 else tr i d

/-- Python's `min(xs, key=k)`: first element attaining the minimal key. -/
def pyMin (key : Employee → Nat) : Employee → List Employee → Employee
  | best, [] => best
  | best, e :: rest => pyMin key (if key e < key best then e else best) rest

/-- Lexicographic order on shift indices by (eligible count, original index).
Python's `sorted` is stable, and a stable sort of the index list
`[0, ..., n-1]` by eligible count coincides with sorting by this order. -/
def lexLe (count : Nat → Nat) (i j : Nat) : Prop :=
  count i < count j ∨ (count i = count j ∧ i ≤ j)

instance (count : Nat → Nat) : DecidableRel (lexLe count) := fun i j =>
  inferInstanceAs (Decidable (count i < count j ∨ (count i = count j ∧ i ≤ j)))

/-- `sorted(self.shifts, key=lambda s: len(shift_eligible_map[s]))`, on
indices: the stable sort by eligible count of the index list. -/
def shiftOrder (count : Nat → Nat) (n : Nat) : List Nat :=
  List.insertionSort (lexLe count) (List.range n)

/-- One iteration of the assignment loop (lines 135-152) at shift index `i`:
skip when already assigned or no eligible employee, otherwise assign the
eligible employee with the fewest shifts that day (first one on ties) and
increment its counter. -/
def assignStep (eligMap : Nat → List Employee) (st : List Shift × Tracker) (i : Nat) :
    List Shift × Tracker :=
  match st.1[i]? with
  | none => st
  | some s =>
    if s.is_assigned then st
    else
      match eligMap i with
      | [] => st
      | e :: rest =>
        let selected := pyMin (fun w => st.2 w.employee_id s.day) e rest
        (st.1.set i (s.assign_employee selected).1, st.2.incr selected.employee_id s.day)

/-- The precomputed `shift_eligible_map`, indexed by position in `b.shifts`. -/
def ShiftBuilder.eligList (b : ShiftBuilder) : List (List Employee) :=
  b.shifts.map (eligibleFor b.employees)

/-- Lookup in the precomputed eligibility map. -/
def ShiftBuilder.eligMap (b : ShiftBuilder) (i : Nat) : List Employee :=
  b.eligList[i]?.getD []

/-- `len(shift_eligible_map[s])` for the shift at index `i`. -/
def ShiftBuilder.eligCount (b : ShiftBuilder) (i : Nat) : Nat :=
  (b.eligMap i).length

/-- The order in which `assign_shifts` processes the shifts. -/
def ShiftBuilder.assignOrder (b : ShiftBuilder) : List Nat :=
  shiftOrder b.eligCount b.shifts.length

/-- `ShiftBuilder.assign_shifts` (lines 115-152). -/
def ShiftBuilder.assign_shifts (b : ShiftBuilder) : ShiftBuilder :=
  { b with shifts := (b.assignOrder.foldl (assignStep b.eligMap) (b.shifts, initTracker)).1 }

/-- Soundness of an eligibility map for a shift list: every employee the map
offers for a slot passes the eligibility check of the shift at that slot.
This holds for the precomputed map and is preserved by every assignment step,
because an assignment changes only the `employee` field of a shift. -/
def eligOk (eligMap : Nat → List Employee) (shifts : List Shift) : Prop :=
  ∀ i s, shifts[i]? = some s → ∀ w ∈ eligMap i, eligCheck w s = true

/-- The empty builder (`ShiftBuilder.__init__`). -/
def ShiftBuilder.empty : ShiftBuilder :=
  ⟨[], [], [], []⟩

/-- The single worker of the duplicated-shift scenario: eligible for "Sales",
available only Monday (day 0) Morning. -/
def wE1 : Employee :=
  ⟨"E1", "E1", ["Sales"], [(0, ["Morning"])]⟩

/-- The duplicated-shift scenario: one worker, time slots `["Morning"]`, and
shifts generated for day 0 with a duplicate department entry, which yields two
identical (Monday, Morning, Sales) shifts. -/
def c4Builder : ShiftBuilder :=
  ((ShiftBuilder.empty.add_employee wE1).set_time_slots ["Morning"]).generate_shifts
    ["Sales", "Sales"] (some [0])

/-! ### The selection function `min(eligible, key=...)` -/

theorem pyMin_mem (key : Employee → Nat) (a : Employee) (l : List Employee) :
    pyMin key a l ∈ a :: l := by
  induction l generalizing a with
  | nil => simp [pyMin]
  | cons b l ih =>
    show pyMin key (if key b < key a then b else a) l ∈ a :: b :: l
    rcases List.mem_cons.mp (ih (if key b < key a then b else a)) with h' | h'
    · rw [h']
      by_cases hc : key b < key a
      · simp [hc]
      · simp [hc]
    · exact List.mem_cons_of_mem _ (List.mem_cons_of_mem _ h')

theorem pyMin_spec (key : Employee → Nat) (a : Employee) (l : List Employee) :
    ∃ pre post, a :: l = pre ++ pyMin key a l :: post ∧
      (∀ w ∈ pre, key (pyMin key a l) < key w) ∧
      (∀ w ∈ a :: l, key (pyMin key a l) ≤ key w) := by
  induction l generalizing a with
  | nil =>
    refine ⟨[], [], rfl, by simp, ?_⟩
    intro w hw
    rcases List.mem_cons.mp hw with rfl | h
    · exact Nat.le_refl _
    · exact absurd h (List.not_mem_nil w)
  | cons b l ih =>
    by_cases h : key b < key a
    · have hval : pyMin key a (b :: l) = pyMin key b l := by simp [pyMin, h]
      obtain ⟨pre', post', hdec, hpre, hmin⟩ := ih b
      refine ⟨a :: pre', post', ?_, ?_, ?_⟩
      · rw [hval, List.cons_append, ← hdec]
      · intro w hw
        rw [hval]
        rcases List.mem_cons.mp hw with rfl | hw
        · exact Nat.lt_of_le_of_lt (hmin b (List.mem_cons_self b l)) h
        · exact hpre w hw
      · intro w hw
        rw [hval]
        rcases List.mem_cons.mp hw with rfl | hw
        · exact Nat.le_of_lt (Nat.lt_of_le_of_lt (hmin b (List.mem_cons_self b l)) h)
        · exact hmin w hw
    · have hval : pyMin key a (b :: l) = pyMin key a l := by simp [pyMin, h]
      have hab : key a ≤ key b := Nat.le_of_not_lt h
      obtain ⟨pre', post', hdec, hpre, hmin⟩ := ih a
      cases pre' with
      | nil =>
        simp only [List.nil_append] at hdec
        injection hdec with h1 h2
        rw [hval, ← h1]
        refine ⟨[], b :: l, rfl, by simp, ?_⟩
        intro w hw
        rcases List.mem_cons.mp hw with rfl | hw
        · exact Nat.le_refl _
        · rcases List.mem_cons.mp hw with rfl | hw
          · exact hab
          · have h3 := hmin w (List.mem_cons_of_mem a hw)
            rwa [← h1] at h3
      | cons p pre'' =>
        rw [List.cons_append] at hdec
        injection hdec with h1 h2
        subst h1
        rw [hval]
        have hma : key (pyMin key a l) < key a := hpre a (List.mem_cons_self a pre'')
        refine ⟨a :: b :: pre'', post', ?_, ?_, ?_⟩
        · rw [List.cons_append, List.cons_append, ← h2]
        · intro w hw
          rcases List.mem_cons.mp hw with rfl | hw
          · exact hma
          · rcases List.mem_cons.mp hw with rfl | hw
            · exact Nat.lt_of_lt_of_le hma hab
            · exact hpre w (List.mem_cons_of_mem a hw)
        · intro w hw
          rcases List.mem_cons.mp hw with rfl | hw
          · exact hmin _ (List.mem_cons_self _ _)
          · rcases List.mem_cons.mp hw with rfl | hw
            · exact Nat.le_trans (Nat.le_of_lt hma) hab
            · exact hmin w (List.mem_cons_of_mem a hw)

/-! ### Single steps of the assignment loop -/

theorem assignStep_out (eligMap : Nat → List Employee) (st : List Shift × Tracker) (i : Nat)
    (h : st.1[i]? = none) : assignStep eligMap st i = st := by
  simp [assignStep, h]

theorem assignStep_skip (eligMap : Nat → List Employee) (st : List Shift × Tracker) (i : Nat)
    (s : Shift) (hs : st.1[i]? = some s) (ha : s.is_assigned = true) :
    assignStep eligMap st i = st := by
  simp [assignStep, hs, ha]

theorem assignStep_empty (eligMap : Nat → List Employee) (st : List Shift × Tracker) (i : Nat)
    (s : Shift) (hs : st.1[i]? = some s) (hnone : s.employee = none) (he : eligMap i = []) :
    assignStep eligMap st i = st := by
  simp [assignStep, hs, he, Shift.is_assigned, hnone]

theorem assignStep_assign (eligMap : Nat → List Employee) (shifts : List Shift) (tr : Tracker)
    (i : Nat) (s : Shift) (e : Employee) (rest : List Employee)
    (hs : shifts[i]? = some s) (hnone : s.employee = none) (he : eligMap i = e :: rest)
    (hok : ∀ w ∈ eligMap i, eligCheck w s = true) :
    assignStep eligMap (shifts, tr) i =
      (shifts.set i { s with employee := some (pyMin (fun w => tr w.employee_id s.day) e rest) },
        tr.incr (pyMin (fun w => tr w.employee_id s.day) e rest).employee_id s.day) := by
  have hchk : eligCheck (pyMin (fun w => tr w.employee_id s.day) e rest) s = true :=
    hok _ (by rw [he]; exact pyMin_mem _ _ _)
  simp [assignStep, hs, he, Shift.is_assigned, hnone, Shift.assign_employee, hchk]

theorem assignStep_cases (eligMap : Nat → List Employee) (shifts : List Shift) (tr : Tracker)
    (i : Nat) (hok : ∀ s, shifts[i]? = some s → ∀ w ∈ eligMap i, eligCheck w s = true) :
    assignStep eligMap (shifts, tr) i = (shifts, tr) ∨
      ∃ s sel, shifts[i]? = some s ∧ s.employee = none ∧ sel ∈ eligMap i ∧
        assignStep eligMap (shifts, tr) i =
          (shifts.set i { s with employee := some sel }, tr.incr sel.employee_id s.day) := by
  cases hs : shifts[i]? with
  | none => exact Or.inl (assignStep_out _ _ _ hs)
  | some s =>
    cases hemp : s.employee with
    | some w => exact Or.inl (assignStep_skip _ _ _ s hs (by simp [Shift.is_assigned, hemp]))
    | none =>
      cases he : eligMap i with
      | nil => exact Or.inl (assignStep_empty _ _ _ s hs hemp he)
      | cons e rest =>
        exact Or.inr ⟨s, pyMin (fun w => tr w.employee_id s.day) e rest, rfl, hemp,
          pyMin_mem _ _ _, assignStep_assign _ _ _ _ s e rest hs hemp he (hok s hs)⟩

theorem assignStep_length (eligMap : Nat → List Employee) (st : List Shift × Tracker) (i : Nat) :
    ((assignStep eligMap st i).1).length = st.1.length := by
  unfold assignStep
  split
  · rfl
  · split
    · rfl
    · split
      · rfl
      · simp

/-! ### Preservation over the whole assignment loop -/

theorem eligOk_set (eligMap : Nat → List Employee) (shifts : List Shift) (i : Nat) (s : Shift)
    (o : Option Employee) (h : eligOk eligMap shifts) (hs : shifts[i]? = some s) :
    eligOk eligMap (shifts.set i { s with employee := o }) := by
  intro j s' hj w hw
  by_cases hij : i = j
  · subst hij
    have hlt : i < shifts.length := (List.getElem?_eq_some_iff.mp hs).1
    rw [List.getElem?_set_self (by simpa using hlt)] at hj
    cases Option.some.inj hj
    exact h i s hs w hw
  · rw [List.getElem?_set_ne hij] at hj
    exact h j s' hj w hw

theorem foldl_preserve (eligMap : Nat → List Employee) (order : List Nat) :
    ∀ (shifts : List Shift) (tr : Tracker), eligOk eligMap shifts →
      ∀ j s, shifts[j]? = some s →
        ∃ s', ((order.foldl (assignStep eligMap) (shifts, tr)).1)[j]? = some s' ∧
          s'.day = s.day ∧ s'.time_slot = s.time_slot ∧ s'.department = s.department ∧
          (s'.employee = s.employee ∨
            (s.employee = none ∧ ∃ w, s'.employee = some w ∧ w ∈ eligMap j)) := by
  induction order with
  | nil =>
    intro shifts tr _ j s hj
    exact ⟨s, hj, rfl, rfl, rfl, Or.inl rfl⟩
  | cons i order ih =>
    intro shifts tr hok j s hj
    rw [List.foldl_cons]
    rcases assignStep_cases eligMap shifts tr i (fun s hs w hw => hok i s hs w hw) with
      hcase | ⟨s₀, sel, hs₀, hnone₀, hsel, hcase⟩
    · rw [hcase]
      exact ih shifts tr hok j s hj
    · rw [hcase]
      by_cases hij : i = j
      · subst hij
        have hss : s = s₀ := by rw [hj] at hs₀; exact Option.some.inj hs₀
        subst hss
        have hlt : i < shifts.length := (List.getElem?_eq_some_iff.mp hj).1
        have hset : (shifts.set i { s with employee := some sel })[i]? =
            some { s with employee := some sel } :=
          List.getElem?_set_self (by simpa using hlt)
        obtain ⟨s', hget, hd, ht, hdep, hdisj⟩ :=
          ih (shifts.set i { s with employee := some sel }) (tr.incr sel.employee_id s.day)
            (eligOk_set eligMap shifts i s (some sel) hok hj) i _ hset
        refine ⟨s', hget, hd, ht, hdep, Or.inr ⟨hnone₀, sel, ?_, hsel⟩⟩
        rcases hdisj with h | ⟨habs, _⟩
        · exact h
        · exact absurd habs (by simp)
      · have hset : (shifts.set i { s₀ with employee := some sel })[j]? = some s := by
          rw [List.getElem?_set_ne hij]; exact hj
        exact ih _ _ (eligOk_set eligMap shifts i s₀ (some sel) hok hs₀) j s hset

theorem foldl_assigns (eligMap : Nat → List Employee) (order : List Nat) :
    ∀ (shifts : List Shift) (tr : Tracker), eligOk eligMap shifts →
      ∀ i ∈ order, ∀ s, shifts[i]? = some s → s.employee = none → eligMap i ≠ [] →
        ∃ s' w, ((order.foldl (assignStep eligMap) (shifts, tr)).1)[i]? = some s' ∧
          s'.employee = some w := by
  induction order with
  | nil =>
    intro _ _ _ i hi
    exact absurd hi (List.not_mem_nil i)
  | cons a order ih =>
    intro shifts tr hok i hi s hs hnone hne
    rw [List.foldl_cons]
    by_cases hia : a = i
    · subst hia
      cases he : eligMap a with
      | nil => exact absurd he hne
      | cons e rest =>
        rw [assignStep_assign eligMap shifts tr a s e rest hs hnone he (hok a s hs)]
        have hlt : a < shifts.length := (List.getElem?_eq_some_iff.mp hs).1
        have hset : (shifts.set a
            { s with employee := some (pyMin (fun w => tr w.employee_id s.day) e rest) })[a]? =
            some { s with employee := some (pyMin (fun w => tr w.employee_id s.day) e rest) } :=
          List.getElem?_set_self (by simpa using hlt)
        obtain ⟨s', hget, _, _, _, hdisj⟩ :=
          foldl_preserve eligMap order _ _
            (eligOk_set eligMap shifts a s
              (some (pyMin (fun w => tr w.employee_id s.day) e rest)) hok hs) a _ hset
        refine ⟨s', pyMin (fun w => tr w.employee_id s.day) e rest, hget, ?_⟩
        rcases hdisj with h | ⟨habs, _⟩
        · exact h
        · exact absurd habs (by simp)
    · have hi' : i ∈ order := by
        rcases List.mem_cons.mp hi with h | h
        · exact absurd h.symm hia
        · exact h
      rcases assignStep_cases eligMap shifts tr a (fun s hs w hw => hok a s hs w hw) with
        hcase | ⟨s₀, sel, hs₀, hnone₀, hsel, hcase⟩
      · rw [hcase]
        exact ih shifts tr hok i hi' s hs hnone hne
      · rw [hcase]
        have hs' : (shifts.set a { s₀ with employee := some sel })[i]? = some s := by
          rw [List.getElem?_set_ne hia]; exact hs
        exact ih _ _ (eligOk_set eligMap shifts a s₀ (some sel) hok hs₀) i hi' s hs' hnone hne

theorem foldl_length (eligMap : Nat → List Employee) (order : List Nat) :
    ∀ st : List Shift × Tracker,
      ((order.foldl (assignStep eligMap) st).1).length = st.1.length := by
  induction order with
  | nil => intro st; rfl
  | cons a order ih =>
    intro st
    rw [List.foldl_cons, ih (assignStep eligMap st a), assignStep_length]

theorem eligMap_eq (b : ShiftBuilder) (i : Nat) (s : Shift) (hs : b.shifts[i]? = some s) :
    b.eligMap i = eligibleFor b.employees s := by
  simp [ShiftBuilder.eligMap, ShiftBuilder.eligList, hs]

theorem eligOk_base (b : ShiftBuilder) : eligOk b.eligMap b.shifts := by
  intro i s hs w hw
  rw [eligMap_eq b i s hs] at hw
  exact (List.mem_filter.mp hw).2

theorem countP_le_countP_pointwise {α : Type} {p q : α → Bool} :
    ∀ (l₁ l₂ : List α), l₁.length = l₂.length →
      (∀ (i : Nat) a₁ a₂, l₁[i]? = some a₁ → l₂[i]? = some a₂ → p a₁ = true → q a₂ = true) →
      l₁.countP p ≤ l₂.countP q := by
  intro l₁
  induction l₁ with
  | nil => intro l₂ _ _; simp
  | cons a l ih =>
    intro l₂ hlen hpt
    cases l₂ with
    | nil => simp at hlen
    | cons b l₂ =>
      rw [List.countP_cons, List.countP_cons]
      have htail : l.countP p ≤ l₂.countP q := by
        apply ih l₂ (by simpa using hlen)
        intro i a₁ a₂ h1 h2 hp
        exact hpt (i + 1) a₁ a₂ (by simpa using h1) (by simpa using h2) hp
      have hhead : (if p a then 1 else 0) ≤ (if q b then 1 else 0) := by
        by_cases hp : p a = true
        · have hq := hpt 0 a b (by simp) (by simp) hp
          simp [hp, hq]
        · simp [hp]
      exact Nat.add_le_add htail hhead

/-! ### The scarcity sort -/

theorem shiftOrder_perm (count : Nat → Nat) (n : Nat) :
    (shiftOrder count n).Perm (List.range n) :=
  List.perm_insertionSort _ _

theorem shiftOrder_nodup (count : Nat → Nat) (n : Nat) : (shiftOrder count n).Nodup :=
  ((shiftOrder_perm count n).nodup_iff).mpr (List.nodup_range n)

theorem shiftOrder_sorted (count : Nat → Nat) (n : Nat) :
    List.Pairwise (lexLe count) (shiftOrder count n) := by
  haveI : IsTotal Nat (lexLe count) := ⟨by intro a b; unfold lexLe; omega⟩
  haveI : IsTrans Nat (lexLe count) := ⟨by intro a b c hab hbc; unfold lexLe at hab hbc ⊢; omega⟩
  exact List.sorted_insertionSort (lexLe count) (List.range n)

theorem shiftOrder_pairwise_lt (count : Nat → Nat) (n : Nat) :
    List.Pairwise (fun i j => count i < count j ∨ (count i = count j ∧ i < j))
      (shiftOrder count n) := by
  have h2 : List.Pairwise (fun i j : Nat => i ≠ j) (shiftOrder count n) :=
    shiftOrder_nodup count n
  refine ((shiftOrder_sorted count n).and h2).imp ?_
  intro a b hab
  rcases hab with ⟨h, hne⟩
  unfold lexLe at h
  omega

/-! ### Tracker lemmas -/

theorem incr_spec (tr : Tracker) (id : String) (day : Nat) :
    (tr.incr id day) id day = tr id day + 1 ∧
      ∀ id' d', id' ≠ id ∨ d' ≠ day → (tr.incr id day) id' d' = tr id' d' := by
  constructor
  · simp [Tracker.incr]
  · intro id' d' h
    simp only [Tracker.incr]
    rcases h with h | h
    · rw [if_neg]
      intro hc
      exact h hc.1
    · rw [if_neg]
      intro hc
      exact h hc.2

theorem foldl_tracker_mono (eligMap : Nat → List Employee) (order : List Nat) :
    ∀ (shifts : List Shift) (tr : Tracker), eligOk eligMap shifts →
      ∀ id d, tr id d ≤ ((order.foldl (assignStep eligMap) (shifts, tr)).2) id d := by
  induction order with
  | nil =>
    intro shifts tr _ id d
    exact Nat.le_refl _
  | cons a order ih =>
    intro shifts tr hok id d
    rw [List.foldl_cons]
    rcases assignStep_cases eligMap shifts tr a (fun s hs w hw => hok a s hs w hw) with
      hcase | ⟨s₀, sel, hs₀, hnone₀, hsel, hcase⟩
    · rw [hcase]
      exact ih shifts tr hok id d
    · rw [hcase]
      have hstep : tr id d ≤ (tr.incr sel.employee_id s₀.day) id d := by
        simp only [Tracker.incr]
        split
        · omega
        · exact Nat.le_refl _
      exact Nat.le_trans hstep
        (ih _ _ (eligOk_set eligMap shifts a s₀ (some sel) hok hs₀) id d)

/-! ### Shift generation -/

theorem generate_mem (b : ShiftBuilder) (departments : List String) (days : List Nat)
    (d : Nat) (t dep : String) :
    (⟨d, t, dep, none⟩ : Shift) ∈ (b.generate_shifts departments (some days)).shifts ↔
      d ∈ days ∧ t ∈ b.time_slots ∧ dep ∈ departments := by
  simp only [ShiftBuilder.generate_shifts, Option.getD_some, List.mem_flatMap, List.mem_map,
    Shift.mk.injEq]
  constructor
  · rintro ⟨day, hday, ts, hts, dp, hdp, h1, h2, h3, -⟩
    subst h1; subst h2; subst h3
    exact ⟨hday, hts, hdp⟩
  · rintro ⟨hday, hts, hdp⟩
    exact ⟨d, hday, t, hts, dep, hdp, rfl, rfl, rfl, trivial⟩

theorem generate_unassigned (b : ShiftBuilder) (departments : List String)
    (days : Option (List Nat)) :
    ∀ s ∈ (b.generate_shifts departments days).shifts, s.employee = none := by
  intro s hs
  simp only [ShiftBuilder.generate_shifts, List.mem_flatMap, List.mem_map] at hs
  obtain ⟨day, -, ts, -, dp, -, rfl⟩ := hs
  rfl

theorem generate_nodup (b : ShiftBuilder) (departments : List String) (days : List Nat)
    (hd : departments.Nodup) (hdays : days.Nodup) (hts : b.time_slots.Nodup) :
    (b.generate_shifts departments (some days)).shifts.Nodup := by
  simp only [ShiftBuilder.generate_shifts, Option.getD_some]
  apply List.nodup_flatMap.mpr
  refine ⟨?_, ?_⟩
  · intro day _
    apply List.nodup_flatMap.mpr
    refine ⟨?_, ?_⟩
    · intro t _
      exact hd.map fun x y h => congrArg Shift.department h
    · refine hts.imp ?_
      intro t₁ t₂ hne s h1 h2
      simp only [List.mem_map] at h1 h2
      obtain ⟨dp1, -, rfl⟩ := h1
      obtain ⟨dp2, -, h2eq⟩ := h2
      exact hne (congrArg Shift.time_slot h2eq).symm
  · refine hdays.imp ?_
    intro d₁ d₂ hne s h1 h2
    simp only [List.mem_flatMap, List.mem_map] at h1 h2
    obtain ⟨t1, -, dp1, -, rfl⟩ := h1
    obtain ⟨t2, -, dp2, -, h2eq⟩ := h2
    exact hne (congrArg Shift.day h2eq).symm

/-! ### Discharging eligibility-map soundness on concrete inputs -/

theorem eligOk_of_forall_lt (eligMap : Nat → List Employee) (shifts : List Shift)
    (h : ∀ i < shifts.length, ∀ s, shifts[i]? = some s →
      ∀ w ∈ eligMap i, eligCheck w s = true) :
    eligOk eligMap shifts := by
  intro i s hs
  exact h i (List.getElem?_eq_some_iff.mp hs).1 s hs

/-! ### The claims -/

/-- C4 counterexample: in the scenario with one worker (eligible for "Sales",
available only Monday Morning) and two generated (Monday, Morning, Sales)
shifts, the second shift is NOT left unassigned: `assign_shifts` assigns it to
the worker too, since eligibility never consults existing assignments. -/
theorem C4_second_shift_assigned :
    (c4Builder.assign_shifts).shifts[1]? = some ⟨0, "Morning", "Sales", some wE1⟩ := by
  decide

/-- C4 amended: in that scenario the first shift (in original generation
order) is assigned to the worker, and the second shift is also assigned to the
same worker (a double-booking at the same day and time slot). -/
theorem C4_both_shifts_assigned :
    (c4Builder.assign_shifts).shifts =
      [⟨0, "Morning", "Sales", some wE1⟩, ⟨0, "Morning", "Sales", some wE1⟩] := by
  decide

/-- C1: after `assign_shifts` runs on an initially unassigned shift list (as
`generate_shifts` produces), every assigned shift's worker is available at the
shift's (day, time-slot) and can work in the shift's department. -/
theorem C1_eligibility (b : ShiftBuilder) (hinit : ∀ s ∈ b.shifts, s.employee = none) :
    ∀ s ∈ b.assign_shifts.shifts, ∀ w, s.employee = some w →
      w.is_available s.day s.time_slot = true ∧
        w.can_work_in_department s.department = true := by
  intro s hs w hw
  obtain ⟨j, hj⟩ := List.mem_iff_getElem?.mp hs
  have hfold : b.assign_shifts.shifts =
      (b.assignOrder.foldl (assignStep b.eligMap) (b.shifts, initTracker)).1 := rfl
  have hjlt : j < b.shifts.length := by
    have h1 := (List.getElem?_eq_some_iff.mp hj).1
    rw [hfold, foldl_length] at h1
    exact h1
  have hs₀ : b.shifts[j]? = some b.shifts[j] := List.getElem?_eq_getElem hjlt
  obtain ⟨s', hget, hd, ht, hdep, hdisj⟩ :=
    foldl_preserve b.eligMap b.assignOrder b.shifts initTracker (eligOk_base b) j _ hs₀
  rw [hfold] at hj
  rw [hj] at hget
  cases Option.some.inj hget
  have hmem₀ : b.shifts[j] ∈ b.shifts := List.getElem_mem hjlt
  rcases hdisj with hemp | ⟨-, w', hw', hmem⟩
  · rw [hinit _ hmem₀] at hemp
    rw [hw] at hemp
    cases hemp
  · rw [hw] at hw'
    cases Option.some.inj hw'
    rw [eligMap_eq b j _ hs₀] at hmem
    have hchk : eligCheck w b.shifts[j] = true := (List.mem_filter.mp hmem).2
    unfold eligCheck at hchk
    rw [Bool.and_eq_true] at hchk
    rw [hd, ht, hdep]
    exact hchk

/-- C2: the order in which `assign_shifts` processes the shifts is a
permutation of all shift indices that is ascending in eligible-worker count,
and any two positions with equal counts keep their original relative order
(the strict pairwise relation below). -/
theorem C2_scarcity_order (b : ShiftBuilder) :
    (b.assignOrder).Perm (List.range b.shifts.length) ∧
      List.Pairwise
        (fun i j => b.eligCount i < b.eligCount j ∨ (b.eligCount i = b.eligCount j ∧ i < j))
        b.assignOrder :=
  ⟨shiftOrder_perm _ _, shiftOrder_pairwise_lt _ _⟩

/-- C3: when the assignment loop reaches an unassigned shift whose eligible
list is non-empty, it assigns the first employee, in eligible-list order,
whose current tracker count for the shift's day attains the minimum over the
whole eligible list, and increments exactly that counter. -/
theorem C3_min_selection (eligMap : Nat → List Employee) (shifts : List Shift) (tr : Tracker)
    (i : Nat) (s : Shift) (e : Employee) (rest : List Employee)
    (hs : shifts[i]? = some s) (hnone : s.employee = none) (he : eligMap i = e :: rest)
    (hok : ∀ w ∈ eligMap i, eligCheck w s = true) :
    ∃ sel pre post,
      assignStep eligMap (shifts, tr) i =
        (shifts.set i { s with employee := some sel }, tr.incr sel.employee_id s.day) ∧
      e :: rest = pre ++ sel :: post ∧
      (∀ w ∈ e :: rest, tr sel.employee_id s.day ≤ tr w.employee_id s.day) ∧
      (∀ w ∈ pre, tr sel.employee_id s.day < tr w.employee_id s.day) := by
  obtain ⟨pre, post, hdec, hpre, hmin⟩ := pyMin_spec (fun w => tr w.employee_id s.day) e rest
  exact ⟨pyMin (fun w => tr w.employee_id s.day) e rest, pre, post,
    assignStep_assign eligMap shifts tr i s e rest hs hnone he hok, hdec, hmin, hpre⟩

/-- C3 witness: the selection property at a concrete unassigned shift with a
one-element eligible list. -/
theorem C3_min_selection_witness :
    ∃ sel pre post,
      assignStep (fun _ => [wE1]) ([⟨0, "Morning", "Sales", none⟩], initTracker) 0 =
        (([⟨0, "Morning", "Sales", none⟩] : List Shift).set 0 ⟨0, "Morning", "Sales", some sel⟩,
          initTracker.incr sel.employee_id 0) ∧
      [wE1] = pre ++ sel :: post ∧
      (∀ w ∈ [wE1], initTracker sel.employee_id 0 ≤ initTracker w.employee_id 0) ∧
      (∀ w ∈ pre, initTracker sel.employee_id 0 < initTracker w.employee_id 0) :=
  C3_min_selection (fun _ => [wE1]) [⟨0, "Morning", "Sales", none⟩] initTracker 0
    ⟨0, "Morning", "Sales", none⟩ wE1 [] rfl rfl rfl (by decide)

/-- C1 witness: the eligibility property instantiated at a concrete builder
whose shifts all start unassigned, at a concrete assigned shift. -/
theorem C1_eligibility_witness :
    wE1.is_available 0 "Morning" = true ∧ wE1.can_work_in_department "Sales" = true :=
  C1_eligibility c4Builder (by decide) ⟨0, "Morning", "Sales", some wE1⟩ (by decide) wE1 rfl

/-- C5: a shift that is already assigned when the loop reaches it is skipped
with the whole state unchanged, and an assignment, once recorded on a shift,
is still there unchanged after any further sequence of loop steps. -/
theorem C5_write_once :
    (∀ (eligMap : Nat → List Employee) (st : List Shift × Tracker) (i : Nat) (s : Shift),
      st.1[i]? = some s → s.is_assigned = true → assignStep eligMap st i = st) ∧
    (∀ (eligMap : Nat → List Employee) (order : List Nat) (shifts : List Shift) (tr : Tracker),
      eligOk eligMap shifts →
      ∀ (j : Nat) (s : Shift) (w : Employee), shifts[j]? = some s → s.employee = some w →
        ∃ s' : Shift, ((order.foldl (assignStep eligMap) (shifts, tr)).1)[j]? = some s' ∧
          s'.employee = some w) := by
  constructor
  · exact fun eligMap st i s hs ha => assignStep_skip eligMap st i s hs ha
  · intro eligMap order shifts tr hok j s w hj hw
    obtain ⟨s', hget, -, -, -, hdisj⟩ := foldl_preserve eligMap order shifts tr hok j s hj
    refine ⟨s', hget, ?_⟩
    rcases hdisj with h | ⟨habs, -⟩
    · rw [h, hw]
    · rw [hw] at habs
      cases habs

/-- C5 witness: both write-once properties at a concrete pre-assigned shift. -/
theorem C5_write_once_witness :
    assignStep (fun _ => [wE1]) ([⟨0, "Morning", "Sales", some wE1⟩], initTracker) 0 =
      ([⟨0, "Morning", "Sales", some wE1⟩], initTracker) ∧
    ∃ s', ((([0] : List Nat).foldl (assignStep fun _ => [wE1])
        ([⟨0, "Morning", "Sales", some wE1⟩], initTracker)).1)[0]? = some s' ∧
      s'.employee = some wE1 :=
  ⟨C5_write_once.1 (fun _ => [wE1]) ([⟨0, "Morning", "Sales", some wE1⟩], initTracker) 0
      ⟨0, "Morning", "Sales", some wE1⟩ rfl rfl,
    C5_write_once.2 (fun _ => [wE1]) [0] [⟨0, "Morning", "Sales", some wE1⟩] initTracker
      (eligOk_of_forall_lt _ _ (by decide)) 0 ⟨0, "Morning", "Sales", some wE1⟩ wE1 rfl rfl⟩

/-- C6: starting from an all-unassigned shift list, the number of assigned
shifts after `assign_shifts` is at most the number of shifts with a non-empty
eligible list, and every shift with an empty eligible list ends unassigned. -/
theorem C6_completeness_bound (b : ShiftBuilder)
    (hinit : ∀ s ∈ b.shifts, s.employee = none) :
    b.assign_shifts.shifts.countP (fun s => s.is_assigned) ≤
        b.shifts.countP (fun s => !(eligibleFor b.employees s).isEmpty) ∧
      ∀ (j : Nat) (s : Shift), b.shifts[j]? = some s → eligibleFor b.employees s = [] →
        ∃ s' : Shift, b.assign_shifts.shifts[j]? = some s' ∧ s'.employee = none := by
  have hfold : b.assign_shifts.shifts =
      (b.assignOrder.foldl (assignStep b.eligMap) (b.shifts, initTracker)).1 := rfl
  constructor
  · apply countP_le_countP_pointwise
    · rw [hfold, foldl_length]
    · intro i a₁ a₂ h1 h2 hp
      obtain ⟨s', hget, -, -, -, hdisj⟩ :=
        foldl_preserve b.eligMap b.assignOrder b.shifts initTracker (eligOk_base b) i a₂ h2
      rw [hfold] at h1
      rw [h1] at hget
      cases Option.some.inj hget
      rcases hdisj with hemp | ⟨-, w, hw, hmem⟩
      · exfalso
        rw [hinit a₂ ((List.getElem?_eq_some_iff.mp h2).2 ▸
            List.getElem_mem (List.getElem?_eq_some_iff.mp h2).1)] at hemp
        unfold Shift.is_assigned at hp
        rw [hemp] at hp
        cases hp
      · rw [eligMap_eq b i a₂ h2] at hmem
        obtain ⟨x, t, hxt⟩ := List.exists_cons_of_ne_nil (List.ne_nil_of_mem hmem)
        rw [hxt]
        rfl
  · intro j s hj hempty
    obtain ⟨s', hget, -, -, -, hdisj⟩ :=
      foldl_preserve b.eligMap b.assignOrder b.shifts initTracker (eligOk_base b) j s hj
    refine ⟨s', hfold ▸ hget, ?_⟩
    rcases hdisj with h | ⟨-, w, -, hmem⟩
    · rw [h]
      exact hinit s ((List.getElem?_eq_some_iff.mp hj).2 ▸
        List.getElem_mem (List.getElem?_eq_some_iff.mp hj).1)
    · rw [eligMap_eq b j s hj, hempty] at hmem
      cases hmem

/-- C6 witness: the completeness bound at a concrete builder. -/
theorem C6_completeness_bound_witness :
    c4Builder.assign_shifts.shifts.countP (fun s => s.is_assigned) ≤
        c4Builder.shifts.countP (fun s => !(eligibleFor c4Builder.employees s).isEmpty) ∧
      ∀ (j : Nat) (s : Shift), c4Builder.shifts[j]? = some s →
        eligibleFor c4Builder.employees s = [] →
        ∃ s' : Shift, c4Builder.assign_shifts.shifts[j]? = some s' ∧ s'.employee = none :=
  C6_completeness_bound c4Builder (by decide)

/-- C7: `assign_shifts` is a deterministic function of the worker population,
the time-slot configuration and the shift sequence: equal inputs give equal
assignment outputs. -/
theorem C7_determinism (b₁ b₂ : ShiftBuilder) (hemp : b₁.employees = b₂.employees)
    (_hts : b₁.time_slots = b₂.time_slots) (hsh : b₁.shifts = b₂.shifts) :
    b₁.assign_shifts.shifts = b₂.assign_shifts.shifts := by
  have hmap : b₁.eligMap = b₂.eligMap := by
    funext i
    simp only [ShiftBuilder.eligMap, ShiftBuilder.eligList, hemp, hsh]
  have hcnt : b₁.eligCount = b₂.eligCount := by
    funext i
    simp only [ShiftBuilder.eligCount, hmap]
  have hord : b₁.assignOrder = b₂.assignOrder := by
    simp only [ShiftBuilder.assignOrder, hcnt, hsh]
  simp only [ShiftBuilder.assign_shifts, hord, hmap, hsh]

/-- C7 witness: determinism applied to two identical concrete builders. -/
theorem C7_determinism_witness :
    c4Builder.assign_shifts.shifts = c4Builder.assign_shifts.shifts :=
  C7_determinism c4Builder c4Builder rfl rfl rfl

/-- C8: `generate_shifts` yields only unassigned shifts, contains a shift for
exactly the (day, time-slot, department) combinations of its inputs with no
duplicates (inputs being sets, i.e. duplicate-free), replaces any previously
generated shift list, and yields the empty list when any input is empty. -/
theorem C8_generate (b : ShiftBuilder) (departments : List String) (days : List Nat)
    (hd : departments.Nodup) (hdays : days.Nodup) (hts : b.time_slots.Nodup) :
    (∀ s ∈ (b.generate_shifts departments (some days)).shifts, s.employee = none) ∧
      (∀ (d : Nat) (t dep : String),
        (⟨d, t, dep, none⟩ : Shift) ∈ (b.generate_shifts departments (some days)).shifts ↔
          d ∈ days ∧ t ∈ b.time_slots ∧ dep ∈ departments) ∧
      (b.generate_shifts departments (some days)).shifts.Nodup ∧
      (∀ prev : List Shift,
        (ShiftBuilder.generate_shifts { b with shifts := prev } departments
            (some days)).shifts =
          (b.generate_shifts departments (some days)).shifts) ∧
      ((departments = [] ∨ days = [] ∨ b.time_slots = []) →
        (b.generate_shifts departments (some days)).shifts = []) := by
  refine ⟨generate_unassigned b departments (some days), generate_mem b departments days,
    generate_nodup b departments days hd hdays hts, fun prev => rfl, ?_⟩
  rintro (rfl | rfl | hts0)
  · simp [ShiftBuilder.generate_shifts]
  · rfl
  · simp [ShiftBuilder.generate_shifts, hts0]

/-- C8 witness: the generation contract at concrete inputs. -/
theorem C8_generate_witness :
    (∀ s ∈ ((ShiftBuilder.empty.set_time_slots ["Morning"]).generate_shifts ["Sales"]
        (some [0])).shifts, s.employee = none) ∧
      (∀ (d : Nat) (t dep : String),
        (⟨d, t, dep, none⟩ : Shift) ∈
            ((ShiftBuilder.empty.set_time_slots ["Morning"]).generate_shifts ["Sales"]
              (some [0])).shifts ↔
          d ∈ [0] ∧ t ∈ (ShiftBuilder.empty.set_time_slots ["Morning"]).time_slots ∧
            dep ∈ ["Sales"]) ∧
      ((ShiftBuilder.empty.set_time_slots ["Morning"]).generate_shifts ["Sales"]
        (some [0])).shifts.Nodup ∧
      (∀ prev : List Shift,
        (ShiftBuilder.generate_shifts
            { ShiftBuilder.empty.set_time_slots ["Morning"] with shifts := prev } ["Sales"]
            (some [0])).shifts =
          ((ShiftBuilder.empty.set_time_slots ["Morning"]).generate_shifts ["Sales"]
            (some [0])).shifts) ∧
      ((["Sales"] = ([] : List String) ∨ [0] = ([] : List Nat) ∨
          (ShiftBuilder.empty.set_time_slots ["Morning"]).time_slots = []) →
        ((ShiftBuilder.empty.set_time_slots ["Morning"]).generate_shifts ["Sales"]
          (some [0])).shifts = []) :=
  C8_generate (ShiftBuilder.empty.set_time_slots ["Morning"]) ["Sales"] [0]
    (by decide) (by decide) (by decide)

/-- C9: the workload tracker starts at zero for every worker and day; each
loop step either leaves state unchanged or assigns one shift and increments
exactly the selected worker's counter for that shift's day by one (all other
counters untouched); and no counter ever decreases over the rest of a run. -/
theorem C9_workload :
    (∀ (id : String) (d : Nat), initTracker id d = 0) ∧
    (∀ (tr : Tracker) (id : String) (day : Nat),
      (tr.incr id day) id day = tr id day + 1 ∧
        ∀ id' d', id' ≠ id ∨ d' ≠ day → (tr.incr id day) id' d' = tr id' d') ∧
    (∀ (eligMap : Nat → List Employee) (shifts : List Shift) (tr : Tracker) (i : Nat),
      (∀ s, shifts[i]? = some s → ∀ w ∈ eligMap i, eligCheck w s = true) →
      assignStep eligMap (shifts, tr) i = (shifts, tr) ∨
        ∃ s sel, shifts[i]? = some s ∧ s.employee = none ∧ sel ∈ eligMap i ∧
          assignStep eligMap (shifts, tr) i =
            (shifts.set i { s with employee := some sel }, tr.incr sel.employee_id s.day)) ∧
    (∀ (eligMap : Nat → List Employee) (order : List Nat) (shifts : List Shift) (tr : Tracker),
      eligOk eligMap shifts → ∀ (id : String) (d : Nat),
        tr id d ≤ ((order.foldl (assignStep eligMap) (shifts, tr)).2) id d) :=
  ⟨fun _ _ => rfl, fun tr id day => incr_spec tr id day,
    fun eligMap shifts tr i hok => assignStep_cases eligMap shifts tr i hok,
    fun eligMap order shifts tr hok id d => foldl_tracker_mono eligMap order shifts tr hok id d⟩

/-- C9 witness: every conjunct instantiated at concrete data. -/
theorem C9_workload_witness :
    initTracker "E1" 0 = 0 ∧
    ((initTracker.incr "E1" 0) "E1" 0 = initTracker "E1" 0 + 1 ∧
      ∀ id' d', id' ≠ "E1" ∨ d' ≠ 0 → (initTracker.incr "E1" 0) id' d' = initTracker id' d') ∧
    (assignStep (fun _ => [wE1]) ([⟨0, "Morning", "Sales", none⟩], initTracker) 0 =
        ([⟨0, "Morning", "Sales", none⟩], initTracker) ∨
      ∃ s sel, ([⟨0, "Morning", "Sales", none⟩] : List Shift)[0]? = some s ∧
        s.employee = none ∧ sel ∈ [wE1] ∧
        assignStep (fun _ => [wE1]) ([⟨0, "Morning", "Sales", none⟩], initTracker) 0 =
          (([⟨0, "Morning", "Sales", none⟩] : List Shift).set 0
            { s with employee := some sel }, initTracker.incr sel.employee_id s.day)) ∧
    initTracker "E1" 0 ≤
      ((([0] : List Nat).foldl (assignStep fun _ => [wE1])
        ([⟨0, "Morning", "Sales", none⟩], initTracker)).2) "E1" 0 :=
  ⟨C9_workload.1 "E1" 0, C9_workload.2.1 initTracker "E1" 0,
    C9_workload.2.2.1 (fun _ => [wE1]) [⟨0, "Morning", "Sales", none⟩] initTracker 0
      (fun s hs => by
        cases Option.some.inj hs
        decide),
    C9_workload.2.2.2 (fun _ => [wE1]) [0] [⟨0, "Morning", "Sales", none⟩] initTracker
      (eligOk_of_forall_lt _ _ (by decide)) "E1" 0⟩

/-- C10: on a freshly generated (all-unassigned) shift list, a shift ends up
assigned exactly when its eligible list is non-empty, so the assigned count
equals the number of shifts with at least one eligible worker. -/
theorem C10_full_fill (b : ShiftBuilder) (hinit : ∀ s ∈ b.shifts, s.employee = none) :
    (∀ (j : Nat) (s : Shift), b.shifts[j]? = some s →
      ∃ s' : Shift, b.assign_shifts.shifts[j]? = some s' ∧
        (s'.is_assigned = true ↔ eligibleFor b.employees s ≠ [])) ∧
    b.assign_shifts.shifts.countP (fun s => s.is_assigned) =
      b.shifts.countP (fun s => !(eligibleFor b.employees s).isEmpty) := by
  have hfold : b.assign_shifts.shifts =
      (b.assignOrder.foldl (assignStep b.eligMap) (b.shifts, initTracker)).1 := rfl
  have hpoint : ∀ (j : Nat) (s : Shift), b.shifts[j]? = some s →
      ∃ s' : Shift, b.assign_shifts.shifts[j]? = some s' ∧
        (s'.is_assigned = true ↔ eligibleFor b.employees s ≠ []) := by
    intro j s hj
    have hmem₀ : s ∈ b.shifts :=
      (List.getElem?_eq_some_iff.mp hj).2 ▸ List.getElem_mem (List.getElem?_eq_some_iff.mp hj).1
    obtain ⟨s', hget, -, -, -, hdisj⟩ :=
      foldl_preserve b.eligMap b.assignOrder b.shifts initTracker (eligOk_base b) j s hj
    refine ⟨s', hfold ▸ hget, ?_, ?_⟩
    · intro hass
      rcases hdisj with h | ⟨-, w, hw, hmem⟩
      · exfalso
        unfold Shift.is_assigned at hass
        rw [h, hinit s hmem₀] at hass
        cases hass
      · rw [eligMap_eq b j s hj] at hmem
        exact List.ne_nil_of_mem hmem
    · intro hne
      have hjin : j ∈ b.assignOrder := by
        refine ((shiftOrder_perm b.eligCount b.shifts.length).mem_iff).mpr ?_
        exact List.mem_range.mpr (List.getElem?_eq_some_iff.mp hj).1
      have hne' : b.eligMap j ≠ [] := by
        rw [eligMap_eq b j s hj]
        exact hne
      obtain ⟨s'', w, hget'', hw''⟩ :=
        foldl_assigns b.eligMap b.assignOrder b.shifts initTracker (eligOk_base b) j hjin s hj
          (hinit s hmem₀) hne'
      rw [hget''] at hget
      cases Option.some.inj hget
      unfold Shift.is_assigned
      rw [hw'']
      rfl
  refine ⟨hpoint, Nat.le_antisymm ?_ ?_⟩
  · apply countP_le_countP_pointwise
    · rw [hfold, foldl_length]
    · intro i a₁ a₂ h1 h2 hp
      obtain ⟨s', hget, hiff⟩ := hpoint i a₂ h2
      rw [hfold] at hget h1
      rw [h1] at hget
      cases Option.some.inj hget
      obtain ⟨x, t, hxt⟩ := List.exists_cons_of_ne_nil (hiff.mp hp)
      rw [hxt]
      rfl
  · apply countP_le_countP_pointwise
    · rw [hfold, foldl_length]
    · intro i a₁ a₂ h1 h2 hp
      obtain ⟨s', hget, hiff⟩ := hpoint i a₁ h1
      rw [hfold] at hget h2
      rw [h2] at hget
      cases Option.some.inj hget
      apply hiff.mpr
      intro hnil
      rw [hnil] at hp
      cases hp

/-- C10 witness: the exact-fill property at a concrete builder. -/
theorem C10_full_fill_witness :
    (∀ (j : Nat) (s : Shift), c4Builder.shifts[j]? = some s →
      ∃ s' : Shift, c4Builder.assign_shifts.shifts[j]? = some s' ∧
        (s'.is_assigned = true ↔ eligibleFor c4Builder.employees s ≠ [])) ∧
    c4Builder.assign_shifts.shifts.countP (fun s => s.is_assigned) =
      c4Builder.shifts.countP (fun s => !(eligibleFor c4Builder.employees s).isEmpty) :=
  C10_full_fill c4Builder (by decide)
